import Mathlib

/-!
# short_link_go: a shallow embedding of `main.go`

The development models the two request handlers of the URL shortener
(`GET /:link_id` and `POST /`), the helpers `intPow`, `randomString`,
`contains`, `removeLink`, and the table `fieldMap`.

Modelling conventions
* a Go `string` is a list of bytes (`GoString`); a `rune` is a natural number;
* the Go type `int` is the 64-bit two's complement integer: values are kept in
  `Int` and every arithmetic result is passed through `wrap64`;
* the `links` table is a map from id to row; the clock (`time.Now().Unix()`)
  and the results of `rand.Intn` are inputs of the handlers.
-/

namespace ShortLink

/-! ## Strings, runes and machine integers -/

/-- One byte of a Go string. -/
abbrev Byte := Fin 256

/-- A Go `string`: an arbitrary sequence of bytes. -/
abbrev GoString := List Byte

/-- A Go `rune` (a Unicode code point). -/
abbrev Rune := Nat

/-- The bytes of an ASCII text, used to write concrete Go strings. -/
def goStr (s : String) : GoString :=
  s.data.map (fun c => Fin.ofNat c.toNat)

/-- Reduction of an exact integer result to the Go type `int`
(64 bits, two's complement, silent wrap-around). -/
def wrap64 (x : Int) : Int :=
  (x + 2 ^ 63) % 2 ^ 64 - 2 ^ 63

/-- An exact integer result, kept only when it is representable in `int`. -/
def checked64 (x : Int) : Option Int :=
  if -(2 ^ 63) ≤ x ∧ x < 2 ^ 63 then some x else none

/-! ## `fieldMap` -/

/-- The entries of the map literal `fieldMap`, in source order. -/
def fieldMapEntries : List (Char × Int) :=
  [ ('A', 0), ('a', 1), ('B', 2), ('b', 3),
    ('C', 4), ('c', 5), ('D', 6), ('d', 7),
    ('1', 8), ('E', 9), ('e', 10), ('F', 11),
    ('f', 12), ('G', 13), ('g', 14), ('H', 15),
    ('h', 16), ('2', 17), ('I', 18), ('i', 19),
    ('J', 20), ('j', 21), ('K', 22), ('k', 23),
    ('L', 24), ('l', 25), ('3', 26), ('M', 27),
    ('m', 28), ('N', 29), ('n', 30), ('O', 31),
    ('o', 32), ('P', 33), ('p', 34), ('4', 35),
    ('Q', 36), ('q', 37), ('R', 38), ('r', 39),
    ('S', 40), ('s', 41), ('T', 42), ('t', 43),
    ('5', 44), ('U', 45), ('u', 46), ('V', 47),
    ('v', 48), ('W', 49), ('w', 50), ('X', 51),
    ('x', 52), ('6', 53), ('Y', 54), ('y', 55),
    ('Z', 56), ('z', 57), ('7', 58), ('8', 59),
    ('9', 60), ('0', 61) ]

/-- The two-valued map read `v, exists := fieldMap[char]`:
`some v` when the rune is a key, `none` when it is not. -/
def fieldMap (char : Rune) : Option Int :=
  (fieldMapEntries.find? (fun e => e.1.toNat == char)).map (fun e => e.2)

/-- The one-valued map read `fieldMap[char]`: a missing key reads as `0`. -/
def fieldMapAt (char : Rune) : Int :=
  (fieldMap char).getD 0

/-! ## `intPow` -/

/-- The loop of `intPow`: `for exp > 0 { result *= base; exp-- }`. -/
def intPowLoop (base : Int) : Nat → Int → Int
  | 0, result => result
  | exp + 1, result => intPowLoop base exp (wrap64 (result * base))

/-- The function `intPow(base, exp int) int`; a non-positive `exp` skips the loop. -/
def intPow (base exp : Int) : Int :=
  intPowLoop base exp.toNat 1

/-- The loop of `intPow` with every product checked against the range of `int`. -/
def intPowLoopChecked (base : Int) : Nat → Int → Option Int
  | 0, result => some result
  | exp + 1, result => (checked64 (result * base)).bind (intPowLoopChecked base exp)

/-- The function `intPow`, failing as soon as a product overflows. -/
def intPowChecked (base exp : Int) : Option Int :=
  intPowLoopChecked base exp.toNat 1

/-! ## The decoding loop -/

/-- One iteration of the decoding loop of both handlers:
`char := rune(linkID[len(linkID)-1-i]); linkIDConverted += fieldMap[char] * intPow(62, i)`. -/
def decodeStep (linkID : GoString) (linkIDConverted : Int) (i : Nat) : Int :=
  let char : Rune := (linkID.getD (linkID.length - 1 - i) 0).val
  wrap64 (linkIDConverted + wrap64 (fieldMapAt char * intPow 62 i))

/-- The first `k` iterations of the decoding loop, from `linkIDConverted = 0`. -/
def decodeUpTo (linkID : GoString) (k : Nat) : Int :=
  (List.range k).foldl (decodeStep linkID) 0

/-- The decoding loop `for i := 0; i < len(linkID); i++ { ... }`. -/
def decode (linkID : GoString) : Int :=
  decodeUpTo linkID linkID.length

/-- One iteration of the decoding loop, failing when an arithmetic result
does not fit in `int`. -/
def decodeStepChecked (linkID : GoString) (linkIDConverted : Option Int) (i : Nat) :
    Option Int :=
  let char : Rune := (linkID.getD (linkID.length - 1 - i) 0).val
  linkIDConverted.bind fun acc =>
    (intPowChecked 62 i).bind fun p =>
      (checked64 (fieldMapAt char * p)).bind fun m =>
        checked64 (acc + m)

/-- The first `k` iterations of the overflow-checked decoding loop. -/
def decodeUpToChecked (linkID : GoString) (k : Nat) : Option Int :=
  (List.range k).foldl (decodeStepChecked linkID) (some 0)

/-- The decoding loop with overflow detection: `none` when some intermediate
result leaves the range of `int`. -/
def decodeChecked (linkID : GoString) : Option Int :=
  decodeUpToChecked linkID linkID.length

/-- The exact base-62 value of a token: the sum over the positions `i` counted
from the right of `fieldMap[c_i] * 62 ^ i`, in unbounded integers. -/
def exactValue (linkID : GoString) : Int :=
  ((List.range linkID.length).map fun i =>
    fieldMapAt (linkID.getD (linkID.length - 1 - i) 0).val * 62 ^ i).sum

/-! ## `range` over a string -/

/-- The rune `utf8.RuneError` (U+FFFD). -/
def runeError : Rune := 0xFFFD

/-- Decoding of one multi-byte UTF-8 sequence at the head of `s`, as the Go
`range` clause does it: the rune and the number of bytes consumed. An invalid
or truncated sequence gives `runeError` and consumes one byte. -/
def decoderune (s : GoString) : Rune × Nat :=
  match s with
  | [] => (runeError, 1)
  | b0 :: rest =>
    if 0xC0 ≤ b0.val ∧ b0.val < 0xE0 then
      match rest with
      | b1 :: _ =>
        if 0x80 ≤ b1.val ∧ b1.val ≤ 0xBF then
          let r := ((b0.val &&& 0x1F) <<< 6) ||| (b1.val &&& 0x3F)
          if 0x7F < r then (r, 2) else (runeError, 1)
        else (runeError, 1)
      | _ => (runeError, 1)
    else if 0xE0 ≤ b0.val ∧ b0.val < 0xF0 then
      match rest with
      | b1 :: b2 :: _ =>
        if (0x80 ≤ b1.val ∧ b1.val ≤ 0xBF) ∧ (0x80 ≤ b2.val ∧ b2.val ≤ 0xBF) then
          let r := ((b0.val &&& 0x0F) <<< 12) ||| ((b1.val &&& 0x3F) <<< 6) ||| (b2.val &&& 0x3F)
          if 0x7FF < r ∧ ¬ (0xD800 ≤ r ∧ r ≤ 0xDFFF) then (r, 3) else (runeError, 1)
        else (runeError, 1)
      | _ => (runeError, 1)
    else if 0xF0 ≤ b0.val ∧ b0.val < 0xF8 then
      match rest with
      | b1 :: b2 :: b3 :: _ =>
        if (0x80 ≤ b1.val ∧ b1.val ≤ 0xBF) ∧ (0x80 ≤ b2.val ∧ b2.val ≤ 0xBF)
            ∧ (0x80 ≤ b3.val ∧ b3.val ≤ 0xBF) then
          let r := ((b0.val &&& 0x07) <<< 18) ||| ((b1.val &&& 0x3F) <<< 12)
            ||| ((b2.val &&& 0x3F) <<< 6) ||| (b3.val &&& 0x3F)
          if 0xFFFF < r ∧ r ≤ 0x10FFFF then (r, 4) else (runeError, 1)
        else (runeError, 1)
      | _ => (runeError, 1)
    else (runeError, 1)

/-- The runes visited by `for _, char := range s`, with at most `fuel`
iterations: a byte below `0x80` is its own rune, anything else goes through
`decoderune`. -/
def rangeRunesFrom : Nat → GoString → List Rune
  | 0, _ => []
  | _ + 1, [] => []
  | fuel + 1, b :: rest =>
    if b.val < 0x80 then b.val :: rangeRunesFrom fuel rest
    else (decoderune (b :: rest)).1 :: rangeRunesFrom fuel (rest.drop ((decoderune (b :: rest)).2 - 1))

/-- The runes visited by `for _, char := range s`; every iteration consumes at
least one byte, so `len(s)` iterations are enough. -/
def rangeRunes (s : GoString) : List Rune :=
  rangeRunesFrom s.length s

/-! ## The link store -/

/-- A row of the table `links`, without its key: the columns `link` and
`validity` (nullable). -/
structure Row where
  link : GoString
  validity : Option Int
  deriving DecidableEq

/-- The table `links` as a map from `id` to row. -/
abbrev Store := Int → Option Row

/-- A statement sent to the database. -/
inductive StoreOp
  | query (id : Int)
  | delete (id : Int)
  | insert (id : Int) (link : GoString) (validity : Option Int)
  deriving DecidableEq

/-- The statement `DELETE FROM links WHERE id=?`. -/
def Store.delete (store : Store) (id : Int) : Store :=
  fun k => if k = id then none else store k

/-- Modelled from the spec: the schema of the table `links` is not part of the
source; the spec gives `id` as its primary key, so
`INSERT INTO links VALUES (?, ?, ?)` fails (`none`) on an id that is already
a key and adds the row otherwise. -/
def Store.insert (store : Store) (id : Int) (link : GoString) (validity : Option Int) :
    Option Store :=
  match store id with
  | some _ => none
  | none => some (fun k => if k = id then some ⟨link, validity⟩ else store k)

/-- The function `removeLink(id int)`; the result of the statement is discarded. -/
def removeLink (store : Store) (id : Int) : Store :=
  store.delete id

/-! ## Responses -/

/-- What a handler writes to the client. -/
inductive Response
  /-- The call `c.Redirect(code, location)`. -/
  | redirect (code : Nat) (location : GoString)
  /-- The call `c.Data(code, "text/html", page)`, the page being the file `404.html`. -/
  | page (code : Nat)
  /-- The call `c.JSON(code, gin.H)` with the fields `ok`, `message`, `content`. -/
  | json (code : Nat) (ok : Bool) (message : String) (content : GoString)
  deriving DecidableEq

/-- The HTTP status of a response. -/
def Response.status : Response → Nat
  | .redirect code _ => code
  | .page code => code
  | .json code _ _ _ => code

/-- The field `content` of a JSON response (empty for the other responses). -/
def Response.content : Response → GoString
  | .json _ _ _ content => content
  | _ => []

/-- Outcome of the `GET /:link_id` handler: the response, the store after the
request and the statements sent to the database, in order. -/
structure GetResult where
  response : Response
  store : Store
  ops : List StoreOp

/-! ## `GET /:link_id` -/

/-- The handler of `GET /:link_id`, for the path parameter `linkID`, the store
`store` and the clock reading `now` (`time.Now().Unix()`). -/
def getHandler (store : Store) (now : Int) (linkID : GoString) : GetResult :=
  if (rangeRunes linkID).any (fun char => (fieldMap char).isNone) then
    ⟨.page 404, store, []⟩
  else
    let linkIDConverted := decode linkID
    match store linkIDConverted with
    | none => ⟨.page 404, store, [.query linkIDConverted]⟩
    | some row =>
      if row.link = [] then ⟨.page 404, store, [.query linkIDConverted]⟩
      else
        match row.validity with
        | some v =>
          if v < now then
            ⟨.page 404, removeLink store linkIDConverted,
              [.query linkIDConverted, .delete linkIDConverted]⟩
          else ⟨.redirect 302 row.link, store, [.query linkIDConverted]⟩
        | none => ⟨.redirect 302 row.link, store, [.query linkIDConverted]⟩

/-! ## Helpers of `POST /` -/

/-- The constant `chars` of `randomString`. -/
def chars : GoString :=
  goStr "ABCDEFGHIJKLMNOPQRSTUVWXYZabcdefghijklmnopqrstuvwxyz0123456789"

/-- The function `randomString(length)`. The results of the successive calls
`rand.Intn(len(chars))` are read from the stream `draws`, starting at position
`pos`; every rune of `chars` is ASCII, so `string(result)` has one byte per rune. -/
def randomString (length : Nat) (draws : Nat → Fin 62) (pos : Nat) : GoString :=
  (List.range length).map fun i => chars.getD (draws (pos + i)).val 0

/-- The function `contains(slice, item)`. -/
def contains (slice : List GoString) (item : GoString) : Bool :=
  match slice with
  | [] => false
  | a :: rest => if a = item then true else contains rest item

/-- The digit loop of `strconv.ParseUint` in base 10: any byte that is not a
decimal digit is a syntax error. The value is accumulated without bound; the
range is checked by `parseInt`. -/
def parseUintDigits : GoString → Nat → Option Nat
  | [], n => some n
  | c :: rest, n =>
    if 48 ≤ c.val ∧ c.val ≤ 57 then parseUintDigits rest (n * 10 + (c.val - 48)) else none

/-- The unsigned part of `strconv.ParseInt`: a non-empty run of decimal digits. -/
def parseUint (s : GoString) : Option Nat :=
  if s = [] then none else parseUintDigits s 0

/-- The library call `strconv.ParseInt(s, 10, 64)`: an optional sign, then
decimal digits, the value within the range of `int64`; `none` stands for a
non-nil error. -/
def parseInt (s : GoString) : Option Int :=
  match s with
  | [] => none
  | c :: rest =>
    if c.val = 43 then
      (parseUint rest).bind fun un => if un < 2 ^ 63 then some (un : Int) else none
    else if c.val = 45 then
      (parseUint rest).bind fun un => if un ≤ 2 ^ 63 then some (-(un : Int)) else none
    else
      (parseUint s).bind fun un => if un < 2 ^ 63 then some (un : Int) else none

/-- Outcome of the `POST /` handler: the response, the store after the request,
the statements sent to the database and the number of calls of `rand.Intn`. -/
structure PostResult where
  response : Response
  store : Store
  ops : List StoreOp
  drawn : Nat

/-- State at the exit of the allocation loop. -/
structure Allocated where
  linkIDRandom : GoString
  linkIDConverted : Int
  ops : List StoreOp
  drawn : Nat

/-! ## `POST /` -/

/-- The allocation loop `for { ... }` of the `POST /` handler, run for at most
`fuel` iterations (`none` when the loop has not exited by then). The query
`SELECT link FROM links WHERE id=?` leaves `existingLink` empty when there is
no row; a query error other than `sql.ErrNoRows` (answer 500) does not arise
on a map. -/
def allocLoop (store : Store) (draws : Nat → Fin 62) :
    Nat → Nat → List StoreOp → Option Allocated
  | 0, _, _ => none
  | fuel + 1, pos, ops =>
    let linkIDRandom := randomString 6 draws pos
    let linkIDConverted := decode linkIDRandom
    let existingLink : GoString :=
      match store linkIDConverted with
      | some row => row.link
      | none => []
    if existingLink = [] then
      some ⟨linkIDRandom, linkIDConverted, ops ++ [.query linkIDConverted], pos + 6⟩
    else allocLoop store draws fuel (pos + 6) (ops ++ [.query linkIDConverted])

/-- The second half of the `POST /` handler: allocation loop, insert, answer. -/
def postAllocate (store : Store) (draws : Nat → Fin 62) (fuel : Nat)
    (link : GoString) (validityInt : Option Int) : Option PostResult :=
  match allocLoop store draws fuel 0 [] with
  | none => none
  | some a =>
    match store.insert a.linkIDConverted link validityInt with
    | none =>
      some ⟨.json 500 false "error" [], store,
        a.ops ++ [.insert a.linkIDConverted link validityInt], a.drawn⟩
    | some store' =>
      some ⟨.json 200 true "successful" a.linkIDRandom, store',
        a.ops ++ [.insert a.linkIDConverted link validityInt], a.drawn⟩

/-- The handler of `POST /` for the form fields `key`, `link`, `validity`
(an absent field reads as the empty string), the allow-list `keys`
(`config.KEYS`), the store, the clock reading `now` and the random stream.
The result is `none` only when the allocation loop needs more than `fuel`
iterations. -/
def postHandler (keys : List GoString) (store : Store) (now : Int)
    (draws : Nat → Fin 62) (fuel : Nat) (key link validity : GoString) :
    Option PostResult :=
  if key = [] ∨ link = [] then
    some ⟨.json 400 false "bad field(s)" [], store, [], 0⟩
  else if !contains keys key then
    some ⟨.json 403 false "forbidden" [], store, [], 0⟩
  else if validity ≠ [] then
    match parseInt validity with
    | none => some ⟨.json 400 false "bad field(s)" [], store, [], 0⟩
    | some v =>
      if v ≤ now then some ⟨.json 400 false "bad field(s)" [], store, [], 0⟩
      else postAllocate store draws fuel link (some v)
  else postAllocate store draws fuel link none

/-! ## The encoder of the specification -/

/-- Modelled from the spec: the symbol whose digit in `fieldMap` is `d`
(the source has no encoder; the spec asks for the same table in both
directions). -/
def symbolOf (d : Nat) : Byte :=
  match fieldMapEntries.find? (fun e => e.2 == (d : Int)) with
  | some e => Fin.ofNat e.1.toNat
  | none => 0

/-- Modelled from the spec: the encoder `encode`, absent from the source.
`encode 0` is the single symbol of digit `0`; a positive `n` is written in
base 62, most significant digit first, each digit replaced by its symbol. -/
def encode (n : Nat) : GoString :=
  if n = 0 then [symbolOf 0] else ((Nat.digits 62 n).reverse).map symbolOf

/-! ## Auxiliary definitions used in the statements -/

/-- The term of position `i` (from the right) in the exact value of a token. -/
def placeTerm (linkID : GoString) (i : Nat) : Int :=
  fieldMapAt (linkID.getD (linkID.length - 1 - i) 0).val * 62 ^ i

/-- The exact sum of the first `k` terms. -/
def exactUpTo (linkID : GoString) (k : Nat) : Int :=
  ((List.range k).map (placeTerm linkID)).sum

/-- The digit of a byte, as a natural number. -/
def digitNat (b : Byte) : Nat :=
  (fieldMapAt b.val).toNat

/-- A byte is a key of `fieldMap`. -/
abbrev isKey (b : Byte) : Prop :=
  fieldMap b.val ≠ none

/-! ## Concrete stores and inputs -/

/-- A store with one live link, expiring at time `5`, under the id of the token `aA`. -/
def demoStore : Store :=
  fun id => if id = 62 then some ⟨goStr "u", some 5⟩ else none

/-- The random stream whose draws are all `0`: every candidate token is `AAAAAA`. -/
def zeroDraws : Nat → Fin 62 :=
  fun _ => 0

/-- The empty table. -/
def emptyStore : Store :=
  fun _ => none

/-- The outcome of creating the link `u` with validity `9` in the empty table,
the random stream being `zeroDraws`. -/
def demoCreated : PostResult :=
  ⟨.json 200 true "successful" (goStr "AAAAAA"),
    fun k => if k = decode (randomString 6 zeroDraws 0) then some ⟨goStr "u", some 9⟩
      else emptyStore k,
    [.query 0, .insert 0 (goStr "u") (some 9)], 6⟩

/-- A table whose only row, at id `0`, has an empty target. -/
def emptyTargetStore : Store :=
  fun id => if id = 0 then some ⟨[], none⟩ else none

/-- State of the allocation loop at its exit on the table `demoStore`. -/
def demoAllocated : Allocated :=
  ⟨goStr "AAAAAA", 0, [.query 0], 6⟩

set_option maxRecDepth 100000



/-! ## Machine arithmetic -/

theorem wrap64_modEq (x : Int) : wrap64 x ≡ x [ZMOD 2 ^ 64] := by
  unfold wrap64 Int.ModEq
  omega

theorem wrap64_lower (x : Int) : -(2 ^ 63) ≤ wrap64 x := by
  unfold wrap64
  omega

theorem wrap64_upper (x : Int) : wrap64 x < 2 ^ 63 := by
  unfold wrap64
  omega

theorem wrap64_of_range {x : Int} (h₁ : -(2 ^ 63) ≤ x) (h₂ : x < 2 ^ 63) : wrap64 x = x := by
  unfold wrap64
  omega

theorem wrap64_congr {x y : Int} (h : x ≡ y [ZMOD 2 ^ 64]) : wrap64 x = wrap64 y := by
  unfold wrap64
  unfold Int.ModEq at h
  omega

theorem wrap64_idem (x : Int) : wrap64 (wrap64 x) = wrap64 x :=
  wrap64_congr (wrap64_modEq x)

theorem checked64_of_range {x : Int} (h₁ : 0 ≤ x) (h₂ : x < 2 ^ 63) : checked64 x = some x := by
  unfold checked64
  rw [if_pos]
  constructor <;> omega

theorem intPowLoop_modEq (base : Int) (n : Nat) (r : Int) :
    intPowLoop base n r ≡ r * base ^ n [ZMOD 2 ^ 64] := by
  induction n generalizing r with
  | zero => simp [intPowLoop, Int.ModEq]
  | succ n ih =>
    rw [intPowLoop]
    refine (ih _).trans ?_
    have h := (wrap64_modEq (r * base)).mul_right (base ^ n)
    rw [pow_succ]
    calc wrap64 (r * base) * base ^ n ≡ r * base * base ^ n [ZMOD 2 ^ 64] := h
      _ = r * (base ^ n * base) := by ring
      _ ≡ r * (base ^ n * base) [ZMOD 2 ^ 64] := Int.ModEq.refl _

theorem intPow_modEq (base : Int) (i : Nat) : intPow base i ≡ base ^ i [ZMOD 2 ^ 64] := by
  have h := intPowLoop_modEq base i 1
  simpa [intPow] using h

/-! ## The decoding loop and the exact value -/

theorem exactValue_eq (linkID : GoString) : exactValue linkID = exactUpTo linkID linkID.length :=
  rfl

theorem exactUpTo_succ (linkID : GoString) (k : Nat) :
    exactUpTo linkID (k + 1) = exactUpTo linkID k + placeTerm linkID k := by
  simp [exactUpTo, List.range_succ]

theorem decodeUpTo_succ (linkID : GoString) (k : Nat) :
    decodeUpTo linkID (k + 1) = decodeStep linkID (decodeUpTo linkID k) k := by
  simp [decodeUpTo, List.range_succ]

theorem decodeUpToChecked_succ (linkID : GoString) (k : Nat) :
    decodeUpToChecked linkID (k + 1)
      = decodeStepChecked linkID (decodeUpToChecked linkID k) k := by
  simp [decodeUpToChecked, List.range_succ]

theorem decodeStep_modEq (linkID : GoString) (acc : Int) (i : Nat) :
    decodeStep linkID acc i ≡ acc + placeTerm linkID i [ZMOD 2 ^ 64] := by
  unfold decodeStep placeTerm
  refine (wrap64_modEq _).trans ?_
  refine Int.ModEq.add_left _ ?_
  refine (wrap64_modEq _).trans ?_
  exact Int.ModEq.mul_left _ (intPow_modEq 62 i)

theorem decodeUpTo_modEq (linkID : GoString) (k : Nat) :
    decodeUpTo linkID k ≡ exactUpTo linkID k [ZMOD 2 ^ 64] := by
  induction k with
  | zero => simp [decodeUpTo, exactUpTo, Int.ModEq]
  | succ k ih =>
    rw [decodeUpTo_succ, exactUpTo_succ]
    exact (decodeStep_modEq _ _ _).trans (Int.ModEq.add_right _ ih)

/-- The decoding loop computes the exact value reduced to the range of `int`. -/
theorem decode_eq_wrap (linkID : GoString) : decode linkID = wrap64 (exactValue linkID) := by
  rw [exactValue_eq, decode]
  cases h : linkID.length with
  | zero => simp [decodeUpTo, exactUpTo, wrap64]
  | succ k =>
    have h₁ : decodeUpTo linkID (k + 1) = wrap64 (decodeUpTo linkID (k + 1)) := by
      rw [decodeUpTo_succ]
      unfold decodeStep
      exact (wrap64_idem _).symm
    rw [h₁]
    exact wrap64_congr (decodeUpTo_modEq _ _)

/-! ## Facts about the table -/

theorem fieldMapEntries_ascii : ∀ e ∈ fieldMapEntries, e.1.toNat < 128 := by
  decide

theorem fieldMap_key_lt {r : Rune} {d : Int} (h : fieldMap r = some d) : r < 128 := by
  unfold fieldMap at h
  rw [Option.map_eq_some'] at h
  obtain ⟨e, he, _⟩ := h
  have hm := List.mem_of_find?_eq_some he
  have hp := List.find?_some he
  have := fieldMapEntries_ascii e hm
  have hr : e.1.toNat = r := by simpa using hp
  rw [← hr]
  exact this

theorem fieldMap_table :
    ∀ r : Fin 128, (fieldMap r.val).all
      (fun d => decide (0 ≤ d ∧ d < 62 ∧ (symbolOf d.toNat).val = r.val)) = true := by
  decide

theorem fieldMap_spec {r : Rune} {d : Int} (h : fieldMap r = some d) :
    0 ≤ d ∧ d < 62 ∧ (symbolOf d.toNat).val = r := by
  have hr := fieldMap_key_lt h
  have := fieldMap_table ⟨r, hr⟩
  simpa [h] using this

theorem symbolOf_table : ∀ d : Fin 62, fieldMap (symbolOf d.val).val = some (d.val : Int) := by
  decide

theorem chars_table : ∀ k : Fin 62, (fieldMap (chars.getD k.val 0).val).isSome = true := by
  decide

theorem fieldMapAt_symbolOf {d : Nat} (h : d < 62) : fieldMapAt (symbolOf d).val = d := by
  have := symbolOf_table ⟨d, h⟩
  simp [fieldMapAt, this]

theorem fieldMapAt_nonneg (r : Rune) : 0 ≤ fieldMapAt r := by
  unfold fieldMapAt
  cases h : fieldMap r with
  | none => simp
  | some d => simpa using (fieldMap_spec h).1

theorem fieldMapAt_lt (r : Rune) : fieldMapAt r < 62 := by
  unfold fieldMapAt
  cases h : fieldMap r with
  | none => simp
  | some d => simpa using (fieldMap_spec h).2.1

theorem placeTerm_nonneg (linkID : GoString) (i : Nat) : 0 ≤ placeTerm linkID i := by
  unfold placeTerm
  exact mul_nonneg (fieldMapAt_nonneg _) (by positivity)

theorem placeTerm_le (linkID : GoString) (i : Nat) : placeTerm linkID i ≤ 61 * 62 ^ i := by
  unfold placeTerm
  have h := fieldMapAt_lt (linkID.getD (linkID.length - 1 - i) 0).val
  exact mul_le_mul_of_nonneg_right (by omega) (by positivity)

theorem exactUpTo_nonneg (linkID : GoString) (k : Nat) : 0 ≤ exactUpTo linkID k := by
  induction k with
  | zero => simp [exactUpTo]
  | succ k ih =>
    rw [exactUpTo_succ]
    have := placeTerm_nonneg linkID k
    omega

theorem exactUpTo_lt (linkID : GoString) (k : Nat) : exactUpTo linkID k < 62 ^ k := by
  induction k with
  | zero => simp [exactUpTo]
  | succ k ih =>
    rw [exactUpTo_succ, pow_succ]
    have := placeTerm_le linkID k
    omega

theorem exactValue_nonneg (linkID : GoString) : 0 ≤ exactValue linkID :=
  exactUpTo_nonneg _ _

theorem exactValue_lt (linkID : GoString) : exactValue linkID < 62 ^ linkID.length :=
  exactUpTo_lt _ _

theorem pow62_le_of_le {i : Nat} (h : i ≤ 10) : (62 : Int) ^ i ≤ 62 ^ 10 :=
  pow_le_pow_right₀ (by norm_num) h

theorem intPowLoopChecked_eq (n : Nat) (r : Int) (h₀ : 0 ≤ r) (h : r * 62 ^ n < 2 ^ 63) :
    intPowLoopChecked 62 n r = some (r * 62 ^ n) := by
  induction n generalizing r with
  | zero => simp [intPowLoopChecked]
  | succ n ih =>
    have hpos : (0 : Int) < 62 ^ n := by positivity
    have e : r * 62 ^ (n + 1) = r * 62 * 62 ^ n := by ring
    have hr : r * 62 < 2 ^ 63 := by
      by_contra hc
      have : (2 : Int) ^ 63 * 1 ≤ r * 62 * 62 ^ n :=
        mul_le_mul (by omega) (by omega) (by norm_num) (by omega)
      omega
    rw [intPowLoopChecked, checked64_of_range (by omega) hr, Option.bind, ih _ (by omega) (by omega), e]

theorem intPowChecked_eq {i : Nat} (h : i ≤ 10) : intPowChecked 62 i = some (62 ^ i) := by
  have h₁ := pow62_le_of_le h
  have := intPowLoopChecked_eq i 1 (by norm_num) (by norm_num at h₁ ⊢; omega)
  simpa [intPowChecked] using this

theorem decodeUpToChecked_eq (linkID : GoString) {k : Nat} (h : k ≤ 10) :
    decodeUpToChecked linkID k = some (exactUpTo linkID k) := by
  induction k with
  | zero => simp [decodeUpToChecked, exactUpTo]
  | succ k ih =>
    have hk : k ≤ 9 := by omega
    have hp : (62 : Int) ^ (k + 1) ≤ 62 ^ 10 := pow62_le_of_le h
    have hp' : (62 : Int) ^ k ≤ 62 ^ 10 := pow62_le_of_le (by omega)
    have h₁ := placeTerm_nonneg linkID k
    have h₂ := placeTerm_le linkID k
    have h₃ := exactUpTo_nonneg linkID k
    have h₄ := exactUpTo_lt linkID k
    rw [pow_succ] at hp
    norm_num at hp hp'
    rw [decodeUpToChecked_succ, ih (by omega), exactUpTo_succ]
    unfold decodeStepChecked
    simp only [Option.bind, intPowChecked_eq (show k ≤ 10 by omega)]
    have e : fieldMapAt (linkID.getD (linkID.length - 1 - k) 0).val * 62 ^ k = placeTerm linkID k :=
      rfl
    rw [e, checked64_of_range h₁ (by omega)]
    simp only []
    rw [checked64_of_range (by omega) (by omega)]

theorem digitNat_cast (b : Byte) : (digitNat b : Int) = fieldMapAt b.val := by
  unfold digitNat
  exact Int.toNat_of_nonneg (fieldMapAt_nonneg _)

theorem digitNat_lt (b : Byte) : digitNat b < 62 := by
  have h := fieldMapAt_lt b.val
  have h' := digitNat_cast b
  omega

theorem exactValue_cons (b : Byte) (s : GoString) :
    exactValue (b :: s) = fieldMapAt b.val * 62 ^ s.length + exactValue s := by
  have h₁ : exactUpTo (b :: s) s.length = exactUpTo s s.length := by
    unfold exactUpTo
    congr 1
    apply List.map_congr_left
    intro i hi
    have hi' : i < s.length := List.mem_range.mp hi
    unfold placeTerm
    have e : (b :: s).length - 1 - i = (s.length - 1 - i) + 1 := by
      simp only [List.length_cons]
      omega
    rw [e]
    rfl
  have h₂ : placeTerm (b :: s) s.length = fieldMapAt b.val * 62 ^ s.length := by
    unfold placeTerm
    simp
  rw [exactValue_eq, exactValue_eq, List.length_cons, exactUpTo_succ, h₁, h₂]
  ring

/-- The exact value is the base-62 number whose digits, least significant
first, are the digits of the bytes read from the right. -/
theorem exactValue_eq_ofDigits (s : GoString) :
    exactValue s = (Nat.ofDigits 62 (s.reverse.map digitNat) : Nat) := by
  induction s with
  | nil => simp [exactValue]
  | cons b s ih =>
    rw [exactValue_cons, ih, List.reverse_cons, List.map_append, Nat.ofDigits_append]
    simp only [List.map_cons, List.map_nil, Nat.ofDigits_singleton, List.length_map,
      List.length_reverse]
    push_cast
    rw [digitNat_cast]
    ring

theorem ofDigits_inj_of_length_eq {b : Nat} (hb : 1 < b) :
    ∀ (l₁ l₂ : List Nat), l₁.length = l₂.length → (∀ x ∈ l₁, x < b) → (∀ x ∈ l₂, x < b) →
      Nat.ofDigits b l₁ = Nat.ofDigits b l₂ → l₁ = l₂
  | [], [], _, _, _, _ => rfl
  | [], _ :: _, h, _, _, _ => by simp at h
  | _ :: _, [], h, _, _, _ => by simp at h
  | a₁ :: l₁, a₂ :: l₂, h, h₁, h₂, e => by
    have ha₁ : a₁ < b := h₁ a₁ (List.mem_cons_self _ _)
    have ha₂ : a₂ < b := h₂ a₂ (List.mem_cons_self _ _)
    rw [Nat.ofDigits_cons, Nat.ofDigits_cons] at e
    have hm : (a₁ + b * Nat.ofDigits b l₁) % b = (a₂ + b * Nat.ofDigits b l₂) % b := by rw [e]
    rw [Nat.add_mul_mod_self_left, Nat.add_mul_mod_self_left, Nat.mod_eq_of_lt ha₁,
      Nat.mod_eq_of_lt ha₂] at hm
    subst hm
    have e' : Nat.ofDigits b l₁ = Nat.ofDigits b l₂ := by
      have : b * Nat.ofDigits b l₁ = b * Nat.ofDigits b l₂ := by omega
      exact Nat.eq_of_mul_eq_mul_left (by omega) this
    have := ofDigits_inj_of_length_eq hb l₁ l₂ (by simpa using h)
      (fun x hx => h₁ x (List.mem_cons_of_mem _ hx))
      (fun x hx => h₂ x (List.mem_cons_of_mem _ hx)) e'
    rw [this]

theorem digitNat_inj {a b : Byte} (ha : isKey a) (hb : isKey b) (h : digitNat a = digitNat b) :
    a = b := by
  unfold isKey at ha hb
  obtain ⟨da, hda⟩ := Option.ne_none_iff_exists'.mp ha
  obtain ⟨db, hdb⟩ := Option.ne_none_iff_exists'.mp hb
  have sa := (fieldMap_spec hda).2.2
  have sb := (fieldMap_spec hdb).2.2
  have ea : digitNat a = da.toNat := by simp [digitNat, fieldMapAt, hda]
  have eb : digitNat b = db.toNat := by simp [digitNat, fieldMapAt, hdb]
  rw [ea, eb] at h
  rw [h] at sa
  exact Fin.ext (sa.symm.trans sb)

theorem map_digitNat_inj :
    ∀ (u v : GoString), (∀ b ∈ u, isKey b) → (∀ b ∈ v, isKey b) →
      u.map digitNat = v.map digitNat → u = v
  | [], [], _, _, _ => rfl
  | [], _ :: _, _, _, h => by simp at h
  | _ :: _, [], _, _, h => by simp at h
  | a :: u, b :: v, hu, hv, h => by
    simp only [List.map_cons, List.cons.injEq] at h
    have e := digitNat_inj (hu a (List.mem_cons_self _ _)) (hv b (List.mem_cons_self _ _)) h.1
    have := map_digitNat_inj u v (fun x hx => hu x (List.mem_cons_of_mem _ hx))
      (fun x hx => hv x (List.mem_cons_of_mem _ hx)) h.2
    rw [e, this]

/-- Two tokens of the same length, made of table symbols, with the same exact
value are the same token. -/
theorem exactValue_inj {s t : GoString} (hlen : s.length = t.length)
    (hs : ∀ b ∈ s, isKey b) (ht : ∀ b ∈ t, isKey b) (h : exactValue s = exactValue t) :
    s = t := by
  rw [exactValue_eq_ofDigits, exactValue_eq_ofDigits] at h
  have h' : Nat.ofDigits 62 (s.reverse.map digitNat) = Nat.ofDigits 62 (t.reverse.map digitNat) := by
    exact_mod_cast h
  have hl := ofDigits_inj_of_length_eq (by norm_num) _ _ (by simp [hlen])
    (by intro x hx; obtain ⟨b, _, rfl⟩ := List.mem_map.mp hx; exact digitNat_lt b)
    (by intro x hx; obtain ⟨b, _, rfl⟩ := List.mem_map.mp hx; exact digitNat_lt b) h'
  have hr : s.reverse = t.reverse :=
    map_digitNat_inj _ _ (fun b hb => hs b (List.mem_reverse.mp hb))
      (fun b hb => ht b (List.mem_reverse.mp hb)) hl
  exact List.reverse_injective hr

/-- The exact value of an encoded number is the number. -/
theorem exactValue_encode (n : Nat) : exactValue (encode n) = n := by
  rw [exactValue_eq_ofDigits]
  unfold encode
  split
  · next h =>
    subst h
    have : digitNat (symbolOf 0) = 0 := by
      have := fieldMapAt_symbolOf (show 0 < 62 by norm_num)
      simp [digitNat, this]
    simp [this]
  · have e : (List.map symbolOf (Nat.digits 62 n).reverse).reverse.map digitNat
        = Nat.digits 62 n := by
      rw [← List.map_reverse, List.reverse_reverse, List.map_map]
      conv_rhs => rw [← List.map_id (Nat.digits 62 n)]
      apply List.map_congr_left
      intro d hd
      have hlt : d < 62 := Nat.digits_lt_base (by norm_num) hd
      have := fieldMapAt_symbolOf hlt
      simp only [Function.comp, digitNat, this, id]
      rfl
    rw [e, Nat.ofDigits_digits]

/-! ## The validation loop -/

theorem fieldMap_of_ge {r : Rune} (h : 128 ≤ r) : fieldMap r = none := by
  cases e : fieldMap r with
  | none => rfl
  | some d => exact absurd (fieldMap_key_lt e) (Nat.not_lt.mpr h)

theorem decoderune_ge (s : GoString) : 128 ≤ (decoderune s).1 := by
  unfold decoderune
  split
  · simp [runeError]
  · split_ifs <;> (try simp [runeError]) <;> split <;> (try simp [runeError]) <;>
      split_ifs <;> simp [runeError] <;> rename_i h <;>
      first
        | exact Nat.succ_le_of_lt h
        | exact le_trans (by decide : (128 : Nat) ≤ 2048) (Nat.succ_le_of_lt h.1)
        | exact le_trans (by decide : (128 : Nat) ≤ 65536) (Nat.succ_le_of_lt h.1)

/-- The validation loop finds no rune outside `fieldMap` exactly when every
byte of the string is a key of `fieldMap`. -/
theorem rangeRunesFrom_valid (fuel : Nat) (s : GoString) (h : s.length ≤ fuel) :
    (rangeRunesFrom fuel s).any (fun char => (fieldMap char).isNone) = false
      ↔ ∀ b ∈ s, isKey b := by
  induction fuel generalizing s with
  | zero =>
    have : s = [] := List.length_eq_zero.mp (by omega)
    subst this
    simp [rangeRunesFrom]
  | succ fuel ih =>
    cases s with
    | nil => simp [rangeRunesFrom]
    | cons b rest =>
      have hl : rest.length ≤ fuel := by simpa using h
      by_cases hb : b.val < 0x80
      · simp only [rangeRunesFrom, hb, if_true, List.any_cons, Bool.or_eq_false_iff, ih rest hl,
          List.mem_cons, forall_eq_or_imp, isKey]
        constructor
        · rintro ⟨h₁, h₂⟩
          refine ⟨?_, h₂⟩
          intro hn
          simp [hn] at h₁
        · rintro ⟨h₁, h₂⟩
          refine ⟨?_, h₂⟩
          cases e : fieldMap b.val with
          | none => exact absurd e h₁
          | some d => rfl
      · have h₁ : fieldMap (decoderune (b :: rest)).1 = none := fieldMap_of_ge (decoderune_ge _)
        have h₂ : fieldMap b.val = none := fieldMap_of_ge (Nat.not_lt.mp hb)
        simp only [rangeRunesFrom, hb, if_false, List.any_cons, h₁, Option.isNone_none,
          Bool.true_or, List.mem_cons, forall_eq_or_imp, isKey, h₂]
        simp

theorem rangeRunes_valid (s : GoString) :
    (rangeRunes s).any (fun char => (fieldMap char).isNone) = false ↔ ∀ b ∈ s, isKey b :=
  rangeRunesFrom_valid _ _ (le_refl _)

/-! ## The resolver -/

theorem getHandler_invalid (store : Store) (now : Int) (linkID : GoString)
    (h : (rangeRunes linkID).any (fun char => (fieldMap char).isNone) = true) :
    getHandler store now linkID = ⟨.page 404, store, []⟩ := by
  unfold getHandler
  rw [if_pos h]

theorem getHandler_valid (store : Store) (now : Int) (linkID : GoString)
    (h : ∀ b ∈ linkID, isKey b) :
    getHandler store now linkID =
      match store (decode linkID) with
      | none => ⟨.page 404, store, [.query (decode linkID)]⟩
      | some row =>
        if row.link = [] then ⟨.page 404, store, [.query (decode linkID)]⟩
        else
          match row.validity with
          | some v =>
            if v < now then
              ⟨.page 404, removeLink store (decode linkID),
                [.query (decode linkID), .delete (decode linkID)]⟩
            else ⟨.redirect 302 row.link, store, [.query (decode linkID)]⟩
          | none => ⟨.redirect 302 row.link, store, [.query (decode linkID)]⟩ := by
  have hv := (rangeRunes_valid linkID).mpr h
  unfold getHandler
  rw [if_neg (by simp [hv])]

/-- A live link redirects: a token of table symbols whose row has a non-empty
target and no expiry below `now` is answered with the redirect to the target. -/
theorem getHandler_live (store : Store) (now : Int) (linkID : GoString)
    (hvalid : ∀ b ∈ linkID, isKey b) (link : GoString) (validity : Option Int)
    (hrow : store (decode linkID) = some ⟨link, validity⟩) (hlink : link ≠ [])
    (hlive : ∀ v, validity = some v → now ≤ v) :
    (getHandler store now linkID).response = .redirect 302 link := by
  rw [getHandler_valid store now linkID hvalid, hrow]
  dsimp only
  rw [if_neg hlink]
  cases validity with
  | none => rfl
  | some v =>
    dsimp only
    rw [if_neg (not_lt.mpr (hlive v rfl))]

/-- C1. For a token made only of table symbols, the handler of `GET /:link_id`
answers `Redirect(target)` with status 302 exactly when the store holds a row
at the decoded id whose target is `target`, non-empty, and whose expiry is
absent or at least `now`; when there is no such row it answers the 404 page;
a link whose expiry equals `now` still redirects. -/
theorem getHandler_outcome (store : Store) (now : Int) (linkID : GoString)
    (hvalid : ∀ b ∈ linkID, isKey b) :
    (∀ target, (getHandler store now linkID).response = .redirect 302 target ↔
        ∃ row, store (decode linkID) = some row ∧ row.link = target ∧ target ≠ [] ∧
          (row.validity = none ∨ ∃ e, row.validity = some e ∧ now ≤ e)) ∧
    ((¬ ∃ row, store (decode linkID) = some row ∧ row.link ≠ [] ∧
          (row.validity = none ∨ ∃ e, row.validity = some e ∧ now ≤ e)) →
        (getHandler store now linkID).response = .page 404) ∧
    (∀ target, target ≠ [] → store (decode linkID) = some ⟨target, some now⟩ →
        (getHandler store now linkID).response = .redirect 302 target) := by
  rw [getHandler_valid store now linkID hvalid]
  cases hrow : store (decode linkID) with
  | none => simp
  | some row =>
    obtain ⟨link, validity⟩ := row
    dsimp only
    by_cases hl : link = []
    · rw [if_pos hl]
      refine ⟨fun target => ⟨fun h => by simp at h, fun h => ?_⟩, fun _ => rfl,
        fun target ht h => ?_⟩
      · obtain ⟨row, hr, ht, hne, _⟩ := h
        simp only [Option.some.injEq] at hr
        subst hr
        exact absurd (ht ▸ hl) hne
      · simp only [Option.some.injEq, Row.mk.injEq] at h
        exact absurd (h.1 ▸ hl) ht
    · rw [if_neg hl]
      cases validity with
      | none =>
        dsimp only
        refine ⟨fun target => ⟨fun h => ?_, fun h => ?_⟩, fun h => ?_, fun target ht h => ?_⟩
        · simp only [Response.redirect.injEq, true_and] at h
          exact ⟨_, rfl, h, h ▸ hl, Or.inl rfl⟩
        · obtain ⟨row, hr, ht, _⟩ := h
          simp only [Option.some.injEq] at hr
          subst hr
          simp only at ht
          rw [ht]
        · exact absurd ⟨_, rfl, hl, Or.inl rfl⟩ h
        · simp at h
      | some v =>
        dsimp only
        by_cases hv : v < now
        · rw [if_pos hv]
          refine ⟨fun target => ⟨fun h => by simp at h, fun h => ?_⟩, fun _ => rfl,
            fun target ht h => ?_⟩
          · obtain ⟨row, hr, _, _, hx⟩ := h
            simp only [Option.some.injEq] at hr
            subst hr
            rcases hx with hx | ⟨e, he, hle⟩
            · simp at hx
            · simp only [Option.some.injEq] at he
              omega
          · simp only [Option.some.injEq, Row.mk.injEq] at h
            omega
        · rw [if_neg hv]
          refine ⟨fun target => ⟨fun h => ?_, fun h => ?_⟩, fun h => ?_, fun target ht h => ?_⟩
          · simp only [Response.redirect.injEq, true_and] at h
            exact ⟨_, rfl, h, h ▸ hl, Or.inr ⟨v, rfl, not_lt.mp hv⟩⟩
          · obtain ⟨row, hr, ht, _⟩ := h
            simp only [Option.some.injEq] at hr
            subst hr
            simp only at ht
            rw [ht]
          · exact absurd ⟨_, rfl, hl, Or.inr ⟨v, rfl, not_lt.mp hv⟩⟩ h
          · simp only [Option.some.injEq, Row.mk.injEq] at h
            rw [h.1]

theorem getHandler_outcome_witness :
    (∀ b ∈ goStr "aA", isKey b) ∧
      (getHandler demoStore 5 (goStr "aA")).response = .redirect 302 (goStr "u") :=
  ⟨by decide, (getHandler_outcome demoStore 5 (goStr "aA") (by decide)).2.2 (goStr "u")
    (by decide) (by decide)⟩

/-- C2. A token with a character outside the 62 keys of `fieldMap` (a rune
visited by the validation loop, or equivalently a byte of the string, which
covers non-ASCII characters and invalid UTF-8) gets the 404 page; no statement
is sent to the database and the store is unchanged. -/
theorem getHandler_rejects (store : Store) (now : Int) (linkID : GoString)
    (h : (∃ r ∈ rangeRunes linkID, fieldMap r = none) ∨ (∃ b ∈ linkID, fieldMap b.val = none)) :
    (getHandler store now linkID).response = .page 404 ∧
      (getHandler store now linkID).ops = [] ∧
      (getHandler store now linkID).store = store := by
  have hany : (rangeRunes linkID).any (fun char => (fieldMap char).isNone) = true := by
    rcases h with ⟨r, hr, hn⟩ | ⟨b, hb, hn⟩
    · exact List.any_eq_true.mpr ⟨r, hr, by simp [hn]⟩
    · by_contra hc
      have hf : (rangeRunes linkID).any (fun char => (fieldMap char).isNone) = false := by
        simpa using hc
      exact (rangeRunes_valid linkID).mp hf b hb hn
  rw [getHandler_invalid store now linkID hany]
  exact ⟨rfl, rfl, rfl⟩

theorem getHandler_rejects_witness :
    (getHandler demoStore 5 [0x61, 0xFF]).response = .page 404 ∧
      (getHandler demoStore 5 [0x61, 0xFF]).ops = [] ∧
      (getHandler demoStore 5 [0x61, 0xFF]).store = demoStore :=
  getHandler_rejects demoStore 5 [0x61, 0xFF] (Or.inr ⟨0xFF, by decide, by decide⟩)

/-- C3. For a token of table symbols whose row has a non-empty target and an
expiry below `now`, the handler answers the 404 page, the store afterwards has
no row at the decoded id and every other id is unchanged; in every other case
(redirect, no row, empty target, invalid token) the store is left as it was. -/
theorem getHandler_sweep_frame (store : Store) (now : Int) (linkID : GoString) :
    ((∀ b ∈ linkID, isKey b) → ∀ target e, target ≠ [] → e < now →
        store (decode linkID) = some ⟨target, some e⟩ →
        (getHandler store now linkID).response = .page 404 ∧
          (getHandler store now linkID).store (decode linkID) = none ∧
          ∀ id, id ≠ decode linkID → (getHandler store now linkID).store id = store id) ∧
    (¬ ((∀ b ∈ linkID, isKey b) ∧ ∃ target e, target ≠ [] ∧ e < now ∧
          store (decode linkID) = some ⟨target, some e⟩) →
        (getHandler store now linkID).store = store) := by
  constructor
  · intro hvalid target e ht he hrow
    rw [getHandler_valid store now linkID hvalid, hrow]
    dsimp only
    rw [if_neg ht, if_pos he]
    refine ⟨rfl, ?_, ?_⟩
    · simp [removeLink, Store.delete]
    · intro id hid
      simp [removeLink, Store.delete, hid]
  · intro h
    by_cases hvalid : ∀ b ∈ linkID, isKey b
    · rw [getHandler_valid store now linkID hvalid]
      cases hrow : store (decode linkID) with
      | none => rfl
      | some row =>
        obtain ⟨link, validity⟩ := row
        dsimp only
        by_cases hl : link = []
        · rw [if_pos hl]
        · rw [if_neg hl]
          cases validity with
          | none => rfl
          | some v =>
            dsimp only
            by_cases hv : v < now
            · exact absurd ⟨hvalid, link, v, hl, hv, hrow⟩ h
            · rw [if_neg hv]
    · have hany : (rangeRunes linkID).any (fun char => (fieldMap char).isNone) = true := by
        by_contra hc
        have hf : (rangeRunes linkID).any (fun char => (fieldMap char).isNone) = false := by
          simpa using hc
        exact hvalid ((rangeRunes_valid linkID).mp hf)
      rw [getHandler_invalid store now linkID hany]

theorem getHandler_sweep_frame_witness :
    (getHandler demoStore 6 (goStr "aA")).response = .page 404 ∧
      (getHandler demoStore 6 (goStr "aA")).store (decode (goStr "aA")) = none ∧
      (getHandler demoStore 6 (goStr "aA")).store 7 = demoStore 7 :=
  ⟨((getHandler_sweep_frame demoStore 6 (goStr "aA")).1 (by decide) (goStr "u") 5
      (by decide) (by decide) (by decide)).1,
    ((getHandler_sweep_frame demoStore 6 (goStr "aA")).1 (by decide) (goStr "u") 5
      (by decide) (by decide) (by decide)).2.1,
    ((getHandler_sweep_frame demoStore 6 (goStr "aA")).1 (by decide) (goStr "u") 5
      (by decide) (by decide) (by decide)).2.2 7 (by decide)⟩

/-! ## The creator -/

theorem contains_iff (slice : List GoString) (item : GoString) :
    contains slice item = true ↔ item ∈ slice := by
  induction slice with
  | nil => simp [contains]
  | cons a rest ih =>
    unfold contains
    by_cases h : a = item
    · simp [h]
    · rw [if_neg h, ih]
      simp [Ne.symm h]

theorem randomString_length (length : Nat) (draws : Nat → Fin 62) (pos : Nat) :
    (randomString length draws pos).length = length := by
  simp [randomString]

theorem randomString_keys (length : Nat) (draws : Nat → Fin 62) (pos : Nat) :
    ∀ b ∈ randomString length draws pos, isKey b := by
  intro b hb
  unfold randomString at hb
  obtain ⟨i, _, rfl⟩ := List.mem_map.mp hb
  have := chars_table (draws (pos + i))
  intro hn
  rw [hn] at this
  simp at this

theorem allocLoop_some (store : Store) (draws : Nat → Fin 62) (fuel pos : Nat)
    (ops : List StoreOp) (a : Allocated) (h : allocLoop store draws fuel pos ops = some a) :
    (∃ p, a.linkIDRandom = randomString 6 draws p) ∧
      a.linkIDConverted = decode a.linkIDRandom ∧
      ∀ row, store a.linkIDConverted = some row → row.link = [] := by
  induction fuel generalizing pos ops with
  | zero => simp [allocLoop] at h
  | succ fuel ih =>
    rw [allocLoop] at h
    split_ifs at h with hfree
    · simp only [Option.some.injEq] at h
      subst h
      refine ⟨⟨pos, rfl⟩, rfl, ?_⟩
      intro row hrow
      dsimp only at hrow
      rw [hrow] at hfree
      exact hfree
    · exact ih _ _ h

/-- The fuel is adequate: when the candidate of iteration `k` (counted from `0`)
is free, the allocation loop exits within any fuel above `k`. -/
theorem allocLoop_exits (store : Store) (draws : Nat → Fin 62) (k fuel pos : Nat)
    (ops : List StoreOp) (hfuel : k < fuel)
    (hfree : ∀ row, store (decode (randomString 6 draws (pos + 6 * k))) = some row →
      row.link = []) :
    (allocLoop store draws fuel pos ops).isSome = true := by
  induction k generalizing fuel pos ops with
  | zero =>
    obtain ⟨f, rfl⟩ : ∃ f, fuel = f + 1 := ⟨fuel - 1, by omega⟩
    rw [allocLoop]
    have : (match store (decode (randomString 6 draws pos)) with
        | some row => row.link
        | none => []) = [] := by
      cases e : store (decode (randomString 6 draws pos)) with
      | none => rfl
      | some row => exact hfree row (by simpa using e)
    rw [if_pos this]
    rfl
  | succ k ih =>
    obtain ⟨f, rfl⟩ : ∃ f, fuel = f + 1 := ⟨fuel - 1, by omega⟩
    rw [allocLoop]
    split_ifs
    · rfl
    · apply ih
      · omega
      · intro row hrow
        apply hfree row
        have e : pos + 6 * (k + 1) = pos + 6 + 6 * k := by ring
        rw [e]
        exact hrow

theorem postAllocate_ok (store : Store) (draws : Nat → Fin 62) (fuel : Nat) (link : GoString)
    (validityInt : Option Int) (res : PostResult)
    (h : postAllocate store draws fuel link validityInt = some res)
    (h200 : res.response.status = 200) :
    ∃ p, res.response = .json 200 true "successful" (randomString 6 draws p) ∧
      store (decode (randomString 6 draws p)) = none ∧
      res.store = fun k =>
        if k = decode (randomString 6 draws p) then some ⟨link, validityInt⟩ else store k := by
  unfold postAllocate at h
  cases ha : allocLoop store draws fuel 0 [] with
  | none => simp [ha] at h
  | some a =>
    obtain ⟨⟨p, hp⟩, hc, _⟩ := allocLoop_some store draws fuel 0 [] a ha
    rw [ha] at h
    dsimp only at h
    unfold Store.insert at h
    cases hrow : store a.linkIDConverted with
    | some row =>
      rw [hrow] at h
      simp only [Option.some.injEq] at h
      subst h
      simp [Response.status] at h200
    | none =>
      rw [hrow] at h
      simp only [Option.some.injEq] at h
      subst h
      rw [hc, hp] at hrow
      rw [hc, hp]
      exact ⟨p, rfl, hrow, rfl⟩

/-- C4. When the handler of `POST /` answers 200 (which needs an allow-listed
key and a non-empty target), its `content` is a token of exactly 6 table
symbols; without validity the store then holds the row
(decode(token), target, no expiry) and a following `GET` of the token on the
resulting store answers `Redirect(target)` at any time; with a validity
that parses to `v` (then `now < v`) the store holds (decode(token), target, v)
and the `GET` answers `Redirect(target)` at any time `now' ≤ v`. -/
theorem create_then_resolve (keys : List GoString) (store : Store) (now : Int)
    (draws : Nat → Fin 62) (fuel : Nat) (key link validity : GoString) (res : PostResult)
    (hres : postHandler keys store now draws fuel key link validity = some res)
    (h200 : res.response.status = 200) :
    key ∈ keys ∧ link ≠ [] ∧
      res.response.content.length = 6 ∧
      (∀ b ∈ res.response.content, isKey b) ∧
      (validity = [] →
        res.store (decode res.response.content) = some ⟨link, none⟩ ∧
        ∀ now', (getHandler res.store now' res.response.content).response
          = .redirect 302 link) ∧
      (validity ≠ [] → ∃ v, parseInt validity = some v ∧ now < v ∧
        res.store (decode res.response.content) = some ⟨link, some v⟩ ∧
        ∀ now', now' ≤ v →
          (getHandler res.store now' res.response.content).response = .redirect 302 link) := by
  have key_step : ∀ expiry : Option Int,
      postAllocate store draws fuel link expiry = some res → link ≠ [] →
        res.response.content.length = 6 ∧
        (∀ b ∈ res.response.content, isKey b) ∧
        res.store (decode res.response.content) = some ⟨link, expiry⟩ ∧
        ∀ now', (∀ v, expiry = some v → now' ≤ v) →
          (getHandler res.store now' res.response.content).response = .redirect 302 link := by
    intro expiry hpa hlink
    obtain ⟨p, hresp, _, hstore⟩ := postAllocate_ok store draws fuel link expiry res hpa h200
    have hrow : res.store (decode (randomString 6 draws p)) = some ⟨link, expiry⟩ := by
      rw [hstore]
      simp
    rw [hresp]
    simp only [Response.content]
    refine ⟨randomString_length _ _ _, randomString_keys _ _ _, hrow, ?_⟩
    intro now' hnow
    exact getHandler_live res.store now' _ (randomString_keys 6 draws p) link expiry hrow
      hlink hnow
  unfold postHandler at hres
  split_ifs at hres with h₁ h₂ h₃
  · simp only [Option.some.injEq] at hres
    subst hres
    simp [Response.status] at h200
  · simp only [Option.some.injEq] at hres
    subst hres
    simp [Response.status] at h200
  · have hk : key ∈ keys := (contains_iff keys key).mp (by simpa using h₂)
    have hl : link ≠ [] := fun e => h₁ (Or.inr e)
    cases hp : parseInt validity with
    | none =>
      rw [hp] at hres
      simp only [Option.some.injEq] at hres
      subst hres
      simp [Response.status] at h200
    | some v =>
      rw [hp] at hres
      dsimp only at hres
      split_ifs at hres with h₄
      · simp only [Option.some.injEq] at hres
        subst hres
        simp [Response.status] at h200
      · obtain ⟨c₁, c₂, c₃, c₄⟩ := key_step _ hres hl
        exact ⟨hk, hl, c₁, c₂, fun e => absurd e h₃, fun _ =>
          ⟨v, rfl, not_le.mp h₄, c₃, fun now' hn => c₄ now' (fun w hw => by
            simp only [Option.some.injEq] at hw
            omega)⟩⟩
  · have hk : key ∈ keys := (contains_iff keys key).mp (by simpa using h₂)
    have hl : link ≠ [] := fun e => h₁ (Or.inr e)
    obtain ⟨c₁, c₂, c₃, c₄⟩ := key_step _ hres hl
    exact ⟨hk, hl, c₁, c₂, fun _ => ⟨c₃, fun now' => c₄ now' (fun w hw => by simp at hw)⟩,
      fun e => absurd e h₃⟩

theorem create_then_resolve_witness :
    postHandler [goStr "k"] emptyStore 5 zeroDraws 1 (goStr "k") (goStr "u") (goStr "9")
        = some demoCreated ∧
      demoCreated.response.status = 200 ∧
      ∃ v, parseInt (goStr "9") = some v ∧ 5 < v ∧
        demoCreated.store (decode demoCreated.response.content) = some ⟨goStr "u", some v⟩ ∧
        ∀ now', now' ≤ v →
          (getHandler demoCreated.store now' demoCreated.response.content).response
            = .redirect 302 (goStr "u") :=
  ⟨by rfl, by decide,
    (create_then_resolve [goStr "k"] emptyStore 5 zeroDraws 1 (goStr "k") (goStr "u")
      (goStr "9") demoCreated (by rfl) (by decide)).2.2.2.2.2 (by decide)⟩

theorem postAllocate_store (store : Store) (draws : Nat → Fin 62) (fuel : Nat) (link : GoString)
    (validityInt : Option Int) (res : PostResult)
    (h : postAllocate store draws fuel link validityInt = some res) :
    res.store = store ∨
      ∃ id, res.store = fun k => if k = id then some ⟨link, validityInt⟩ else store k := by
  unfold postAllocate at h
  cases ha : allocLoop store draws fuel 0 [] with
  | none => simp [ha] at h
  | some a =>
    rw [ha] at h
    dsimp only at h
    unfold Store.insert at h
    cases hrow : store a.linkIDConverted with
    | some row =>
      rw [hrow] at h
      simp only [Option.some.injEq] at h
      subst h
      exact Or.inl rfl
    | none =>
      rw [hrow] at h
      simp only [Option.some.injEq] at h
      subst h
      exact Or.inr ⟨a.linkIDConverted, rfl⟩

/-- The creation handler never stores an empty target: a store without empty
targets stays so. -/
theorem postHandler_keeps_targets (keys : List GoString) (store : Store) (now : Int)
    (draws : Nat → Fin 62) (fuel : Nat) (key link validity : GoString) (res : PostResult)
    (hres : postHandler keys store now draws fuel key link validity = some res)
    (hinv : ∀ id row, store id = some row → row.link ≠ []) :
    ∀ id row, res.store id = some row → row.link ≠ [] := by
  have key_step : ∀ expiry : Option Int,
      postAllocate store draws fuel link expiry = some res → link ≠ [] →
        ∀ id row, res.store id = some row → row.link ≠ [] := by
    intro expiry hpa hlink id row hrow
    rcases postAllocate_store store draws fuel link expiry res hpa with e | ⟨j, e⟩
    · rw [e] at hrow
      exact hinv id row hrow
    · rw [e] at hrow
      dsimp only at hrow
      split_ifs at hrow
      · simp only [Option.some.injEq] at hrow
        subst hrow
        exact hlink
      · exact hinv id row hrow
  unfold postHandler at hres
  split_ifs at hres with h₁ h₂ h₃
  · simp only [Option.some.injEq] at hres
    subst hres
    exact hinv
  · simp only [Option.some.injEq] at hres
    subst hres
    exact hinv
  · have hl : link ≠ [] := fun e => h₁ (Or.inr e)
    cases hp : parseInt validity with
    | none =>
      rw [hp] at hres
      simp only [Option.some.injEq] at hres
      subst hres
      exact hinv
    | some v =>
      rw [hp] at hres
      dsimp only at hres
      split_ifs at hres with h₄
      · simp only [Option.some.injEq] at hres
        subst hres
        exact hinv
      · exact key_step _ hres hl
  · exact key_step _ hres (fun e => h₁ (Or.inr e))

/-- C5. The verdict of the `POST /` handler before any random draw or
statement: 400 when `key` or `link` is empty; otherwise 403 when `key` is not
in the allow-list; otherwise 400 when `validity` is non-empty and does not
parse or parses to `v ≤ now`; otherwise the request goes to the allocation,
without expiry for an empty `validity` and with expiry `v` otherwise. Every
rejection leaves the store unchanged, sends no statement, draws no random
number and has an empty `content`; it does not depend on the fuel. -/
theorem postHandler_validation (keys : List GoString) (store : Store) (now : Int)
    (draws : Nat → Fin 62) (fuel : Nat) (key link validity : GoString) :
    ((key = [] ∨ link = []) →
        postHandler keys store now draws fuel key link validity
          = some ⟨.json 400 false "bad field(s)" [], store, [], 0⟩) ∧
    (key ≠ [] → link ≠ [] → key ∉ keys →
        postHandler keys store now draws fuel key link validity
          = some ⟨.json 403 false "forbidden" [], store, [], 0⟩) ∧
    (key ≠ [] → link ≠ [] → key ∈ keys → validity ≠ [] →
        (parseInt validity = none ∨ ∃ v, parseInt validity = some v ∧ v ≤ now) →
        postHandler keys store now draws fuel key link validity
          = some ⟨.json 400 false "bad field(s)" [], store, [], 0⟩) ∧
    (key ≠ [] → link ≠ [] → key ∈ keys → validity = [] →
        postHandler keys store now draws fuel key link validity
          = postAllocate store draws fuel link none) ∧
    (key ≠ [] → link ≠ [] → key ∈ keys → validity ≠ [] →
        ∀ v, parseInt validity = some v → now < v →
        postHandler keys store now draws fuel key link validity
          = postAllocate store draws fuel link (some v)) := by
  refine ⟨?_, ?_, ?_, ?_, ?_⟩
  · intro h
    unfold postHandler
    rw [if_pos h]
  · intro hk hl hn
    have hc : contains keys key = false := by
      cases e : contains keys key with
      | false => rfl
      | true => exact absurd ((contains_iff keys key).mp e) hn
    unfold postHandler
    rw [if_neg (by simp [hk, hl]), if_pos (by simp [hc])]
  · intro hk hl hm hv hp
    have hc : contains keys key = true := (contains_iff keys key).mpr hm
    unfold postHandler
    rw [if_neg (by simp [hk, hl]), if_neg (by simp [hc]), if_pos hv]
    rcases hp with hp | ⟨v, hp, hle⟩
    · rw [hp]
    · rw [hp]
      dsimp only
      rw [if_pos hle]
  · intro hk hl hm hv
    have hc : contains keys key = true := (contains_iff keys key).mpr hm
    unfold postHandler
    rw [if_neg (by simp [hk, hl]), if_neg (by simp [hc]), if_neg (by simp [hv])]
  · intro hk hl hm hv v hp hlt
    have hc : contains keys key = true := (contains_iff keys key).mpr hm
    unfold postHandler
    rw [if_neg (by simp [hk, hl]), if_neg (by simp [hc]), if_pos hv, hp]
    dsimp only
    rw [if_neg (not_le.mpr hlt)]

theorem postHandler_validation_witness :
    postHandler [goStr "k"] demoStore 5 zeroDraws 0 (goStr "k") (goStr "u") (goStr "5")
      = some ⟨.json 400 false "bad field(s)" [], demoStore, [], 0⟩ :=
  (postHandler_validation [goStr "k"] demoStore 5 zeroDraws 0 (goStr "k") (goStr "u")
    (goStr "5")).2.2.1 (by decide) (by decide) (by decide) (by decide)
    (Or.inr ⟨5, by decide, by decide⟩)

/-- C6, counterexample. A request whose key is not in the allow-list and whose
link is empty is answered 400, not 403. -/
theorem forbidden_always_counterexample :
    goStr "x" ∉ [goStr "k"] ∧
      (postHandler [goStr "k"] emptyStore 5 zeroDraws 1 (goStr "x") [] []).map
        (fun r => r.response.status) = some 400 := by
  decide

/-- C6, amended. A creation request whose key and link are both non-empty and
whose key is not in the allow-list is answered 403, whatever the validity
field is (absent, malformed or in the past), with the store unchanged. -/
theorem postHandler_forbidden (keys : List GoString) (store : Store) (now : Int)
    (draws : Nat → Fin 62) (fuel : Nat) (key link validity : GoString)
    (hkey : key ≠ []) (hlink : link ≠ []) (hnot : key ∉ keys) :
    postHandler keys store now draws fuel key link validity
      = some ⟨.json 403 false "forbidden" [], store, [], 0⟩ := by
  have hc : contains keys key = false := by
    cases e : contains keys key with
    | false => rfl
    | true => exact absurd ((contains_iff keys key).mp e) hnot
  unfold postHandler
  rw [if_neg (by simp [hkey, hlink]), if_pos (by simp [hc])]

theorem postHandler_forbidden_witness :
    postHandler [goStr "k"] emptyStore 5 zeroDraws 0 (goStr "x") (goStr "u") (goStr "zz")
      = some ⟨.json 403 false "forbidden" [], emptyStore, [], 0⟩ :=
  postHandler_forbidden [goStr "k"] emptyStore 5 zeroDraws 0 (goStr "x") (goStr "u")
    (goStr "zz") (by decide) (by decide) (by decide)

/-- C7, counterexample. On a table holding a row with an empty target at id
`0`, the allocation loop exits normally with the id `0`, which is a key of the
table; the insert that follows targets that key and the request is answered 500. -/
theorem allocated_unused_counterexample :
    (allocLoop emptyTargetStore zeroDraws 1 0 []).map (fun a => a.linkIDConverted) = some 0 ∧
      emptyTargetStore 0 ≠ none ∧
      (postHandler [goStr "k"] emptyTargetStore 5 zeroDraws 1 (goStr "k") (goStr "u") []).map
        (fun r => r.response.status) = some 500 := by
  decide

/-- C7, amended. When the allocation loop exits normally with an id, that id
is the decoded candidate token and the store holds no row with a non-empty
target at that id; hence, on a store none of whose rows has an empty target,
the store holds no row with that id and the insert that follows succeeds. -/
theorem allocLoop_unused (store : Store) (draws : Nat → Fin 62) (fuel pos : Nat)
    (ops : List StoreOp) (a : Allocated)
    (h : allocLoop store draws fuel pos ops = some a) :
    a.linkIDConverted = decode a.linkIDRandom ∧
      (∀ row, store a.linkIDConverted = some row → row.link = []) ∧
      ((∀ id row, store id = some row → row.link ≠ []) →
        store a.linkIDConverted = none ∧
        ∀ link validityInt, (store.insert a.linkIDConverted link validityInt).isSome = true) := by
  obtain ⟨_, hc, hrow⟩ := allocLoop_some store draws fuel pos ops a h
  refine ⟨hc, hrow, ?_⟩
  intro hinv
  have hnone : store a.linkIDConverted = none := by
    cases e : store a.linkIDConverted with
    | none => rfl
    | some row => exact absurd (hrow row e) (hinv _ row e)
  refine ⟨hnone, ?_⟩
  intro link validityInt
  simp [Store.insert, hnone]

theorem allocLoop_unused_witness :
    allocLoop demoStore zeroDraws 1 0 [] = some demoAllocated ∧
      demoStore demoAllocated.linkIDConverted = none :=
  ⟨by rfl, ((allocLoop_unused demoStore zeroDraws 1 0 [] demoAllocated (by rfl)).2.2
    (by
      intro id row hrow
      unfold demoStore at hrow
      split_ifs at hrow
      simp only [Option.some.injEq] at hrow
      subst hrow
      decide)).1⟩

/-! ## The codec -/

/-- On a string of at most 10 bytes the decoding loop is exact and no
arithmetic result overflows. -/
theorem decode_short (linkID : GoString) (hlen : linkID.length ≤ 10) :
    decode linkID = exactValue linkID ∧
      decodeChecked linkID = some (exactValue linkID) := by
  have h₀ := exactValue_nonneg linkID
  have h₁ := exactValue_lt linkID
  have h₂ : (62 : Int) ^ linkID.length ≤ 62 ^ 10 := pow62_le_of_le hlen
  norm_num at h₂
  refine ⟨?_, decodeUpToChecked_eq linkID hlen⟩
  rw [decode_eq_wrap]
  exact wrap64_of_range (by omega) (by omega)

/-- C8. For every `n` with `0 ≤ n < 2 ^ 63`, the decoding loop of the program
applied to the encoding of `n` (the encoder of the specification over the
table of the program) gives back `n`; the encoding of `0` is the token `A`,
which decodes to `0`. -/
theorem decode_encode (n : Nat) (h : (n : Int) < 2 ^ 63) :
    decode (encode n) = n ∧ encode 0 = goStr "A" ∧ decode (goStr "A") = 0 := by
  refine ⟨?_, by decide, by decide⟩
  rw [decode_eq_wrap, exactValue_encode]
  exact wrap64_of_range (by omega) h

theorem decode_encode_witness :
    decode (encode 238327) = (238327 : Nat) :=
  (decode_encode 238327 (by decide)).1

/-- C9, counterexample. The 11-symbol token `FAAAAAAAAAA` is made of table
symbols, its exact value is `11 * 62 ^ 10`, above `2 ^ 63`; the product
overflows and the decoding loop returns another, negative, id. -/
theorem decode_exact_counterexample :
    (∀ b ∈ goStr "FAAAAAAAAAA", isKey b) ∧
      exactValue (goStr "FAAAAAAAAAA") = 11 * 62 ^ 10 ∧
      decode (goStr "FAAAAAAAAAA") = 11 * 62 ^ 10 - 2 ^ 64 ∧
      decode (goStr "FAAAAAAAAAA") ≠ exactValue (goStr "FAAAAAAAAAA") ∧
      decodeChecked (goStr "FAAAAAAAAAA") = none := by
  decide

/-- C9, amended. For every token of length at most 10, the id computed by the
decoding loop is the exact base-62 value of the token (the sum over the
positions `i` from the right of `fieldMap[c_i] * 62 ^ i`) and no arithmetic
result overflows. For a token of any length the computed id is the exact value
reduced modulo `2 ^ 64` to the signed range, so it is the exact value if and
only if the exact value is below `2 ^ 63`. -/
theorem decode_exact (linkID : GoString) :
    (linkID.length ≤ 10 →
        decode linkID = exactValue linkID ∧
        decodeChecked linkID = some (exactValue linkID)) ∧
      decode linkID = wrap64 (exactValue linkID) ∧
      (decode linkID = exactValue linkID ↔ exactValue linkID < 2 ^ 63) := by
  have h₀ := exactValue_nonneg linkID
  refine ⟨decode_short linkID, decode_eq_wrap linkID, ?_⟩
  · rw [decode_eq_wrap]
    constructor
    · intro h
      have := wrap64_upper (exactValue linkID)
      omega
    · intro h
      exact wrap64_of_range (by omega) h

theorem decode_exact_witness :
    decode (goStr "0000000000") = exactValue (goStr "0000000000") ∧
      decodeChecked (goStr "0000000000") = some (exactValue (goStr "0000000000")) :=
  (decode_exact (goStr "0000000000")).1 (by decide)

/-- C10. Every string returned by `randomString(6)` has 6 bytes, each a key of
`fieldMap`; the decoding loop of the creation handler computes its id without
any overflow, the id is the exact base-62 value and lies in `[0, 62 ^ 6)`; and
two such strings have the same id if and only if they are the same string. -/
theorem issued_ids_one_to_one (draws draws' : Nat → Fin 62) (pos pos' : Nat) :
    (randomString 6 draws pos).length = 6 ∧
      (∀ b ∈ randomString 6 draws pos, isKey b) ∧
      decodeChecked (randomString 6 draws pos) = some (decode (randomString 6 draws pos)) ∧
      decode (randomString 6 draws pos) = exactValue (randomString 6 draws pos) ∧
      0 ≤ decode (randomString 6 draws pos) ∧
      decode (randomString 6 draws pos) < 62 ^ 6 ∧
      (decode (randomString 6 draws pos) = decode (randomString 6 draws' pos') ↔
        randomString 6 draws pos = randomString 6 draws' pos') := by
  have hlen := randomString_length 6 draws pos
  have hlen' := randomString_length 6 draws' pos'
  have hd := decode_short (randomString 6 draws pos) (by omega)
  have hd' := decode_short (randomString 6 draws' pos') (by omega)
  have hlt := exactValue_lt (randomString 6 draws pos)
  rw [hlen] at hlt
  refine ⟨hlen, randomString_keys 6 draws pos, ?_, hd.1, ?_, ?_, ?_⟩
  · rw [hd.1]
    exact hd.2
  · rw [hd.1]
    exact exactValue_nonneg _
  · rw [hd.1]
    exact hlt
  · constructor
    · intro h
      rw [hd.1, hd'.1] at h
      exact exactValue_inj (by omega) (randomString_keys 6 draws pos)
        (randomString_keys 6 draws' pos') h
    · intro h
      rw [h]

theorem issued_ids_one_to_one_witness :
    decode (randomString 6 zeroDraws 0) < 62 ^ 6 :=
  (issued_ids_one_to_one zeroDraws zeroDraws 0 0).2.2.2.2.2.1

end ShortLink
